import Mathlib

/-!
Verification of the deep-query pipeline of the Panako python wrapper
(src/panako.py): segmentation of a long recording into overlapping windows,
parsing of the external engine's per-window output, per-candidate
aggregation, interval merging and ranking.

Seconds are modelled as rationals, scores as integers.  External processes
(ffprobe, ffmpeg, the Java query engine) are modelled as oracles: the
duration probe as an `Option ℚ`, per-window extraction success as
`ℕ → Bool`, and the raw text of each window's point query as
`ℕ → Option String`.
-/

namespace Panako

/-! ### String helpers mirroring the Python primitives used by the parser -/

/-- Numeric value of a list of ASCII digits (most significant first). -/
def digitsToNat (l : List Char) : ℕ :=
  l.foldl (fun acc c => acc * 10 + (c.toNat - 48)) 0

/-- Parse a non-empty all-digit character list, as used by int()/float(). -/
def parseNatDigits (l : List Char) : Option ℕ :=
  if l.isEmpty then none
  else if l.all Char.isDigit then some (digitsToNat l)
  else none

/-- Strip one optional leading sign, returning (isNegative, rest). -/
def parseSign : List Char → Bool × List Char
  | '-' :: rest => (true, rest)
  | '+' :: rest => (false, rest)
  | l => (false, l)

/-- Model of Python int(s): optional sign followed by decimal digits,
surrounding whitespace ignored. -/
def parseIntQ (s : String) : Option ℤ :=
  let p := parseSign s.trim.data
  (parseNatDigits p.2).map (fun n => if p.1 then -(n : ℤ) else (n : ℤ))

/-- Model of Python float(s) on plain decimal notation: optional sign,
then digits with an optional fractional part (at least one digit in all). -/
def parseFloatQ (s : String) : Option ℚ :=
  let p := parseSign s.trim.data
  let l := p.2
  let ip := l.takeWhile (fun c => c != '.')
  let rest := l.dropWhile (fun c => c != '.')
  let v? : Option ℚ :=
    match rest with
    | [] =>
        (parseNatDigits ip).map (fun n => (n : ℚ))
    | _ :: fp =>
        if fp.contains '.' then none
        else if ip.all Char.isDigit && fp.all Char.isDigit &&
            (!ip.isEmpty || !fp.isEmpty) then
          some ((digitsToNat ip : ℚ) + (digitsToNat fp : ℚ) / (10 : ℚ) ^ fp.length)
        else none
  v?.map (fun v => if p.1 then -v else v)

/-- float(parts[i]) if parts[i] else 0 — the blank-defaults-to-zero idiom. -/
def floatOrZero (s : String) : Option ℚ :=
  if s.isEmpty then some 0 else parseFloatQ s

/-- Whether pat occurs as a contiguous substring (Python `pat in s`). -/
def hasInfix (pat : List Char) : List Char → Bool
  | [] => pat.isEmpty
  | c :: rest => pat.isPrefixOf (c :: rest) || hasInfix pat rest

/-! ### Match-output parser (`Panako._parse_query_output`) -/

/-- One parsed hit: the dict {path, score, match_start, match_stop}. -/
structure MatchRec where
  path : String
  score : ℤ
  match_start : ℚ
  match_stop : ℚ
deriving DecidableEq

/-- `'/panako_deep_' in match_path or 'segment_' in match_path`. -/
def isScratchPath (p : String) : Bool :=
  hasInfix "/panako_deep_".data p.data || hasInfix "segment_".data p.data

/-- parts = [p.strip() for p in line.split(';')] on the stripped line. -/
def lineParts (line : String) : List String :=
  (line.trim.splitOn ";").map String.trim

/-- A line survives the non-data-line skip: non-blank and starts with a digit. -/
def isDataLine (line : String) : Bool :=
  !line.trim.isEmpty && (line.trim.front).isDigit

/-- The field logic of `_parse_query_output` on the split fields: requires at
least 10 fields, parses score (field 9), drops self-matches and scratch
artifacts, then parses the candidate start/stop floats (fields 7, 8,
blank meaning 0); any numeric parse failure skips the line. -/
def parseParts (parts : List String) : Option MatchRec :=
  if 10 ≤ parts.length then
    match parseIntQ (parts.getD 9 "") with
    | some sc =>
        if parts.getD 2 "" == parts.getD 5 "" then none
        else if isScratchPath (parts.getD 5 "") then none
        else
          match floatOrZero (parts.getD 7 ""), floatOrZero (parts.getD 8 "") with
          | some a, some b => some ⟨parts.getD 5 "", sc, a, b⟩
          | _, _ => none
    | none => none
  else none

/-- Processing of one output line: strip, skip blank and non-digit-initial
lines, then apply the field logic. -/
def parseLine (line : String) : Option MatchRec :=
  if isDataLine line then parseParts (lineParts line) else none

/-- `Panako._parse_query_output`: split the stripped output into lines and
collect every line that parses. -/
def parse_query_output (output : String) : List MatchRec :=
  (output.trim.splitOn "\n").filterMap parseLine

/-! Classification predicates used to account for the parser's filters. -/

/-- A data line all of whose numeric fields parse (≥ 10 fields, integer
score, parseable-or-blank candidate start/stop). -/
def isValidData (line : String) : Bool :=
  isDataLine line && decide (10 ≤ (lineParts line).length) &&
    (parseIntQ ((lineParts line).getD 9 "")).isSome &&
    (floatOrZero ((lineParts line).getD 7 "")).isSome &&
    (floatOrZero ((lineParts line).getD 8 "")).isSome

/-- A valid data line whose candidate path equals its query path. -/
def isSelfMatch (line : String) : Bool :=
  isValidData line && ((lineParts line).getD 2 "" == (lineParts line).getD 5 "")

/-- A valid data line that is not a self-match but names a scratch artifact. -/
def isScratchMatch (line : String) : Bool :=
  isValidData line && !((lineParts line).getD 2 "" == (lineParts line).getD 5 "") &&
    isScratchPath ((lineParts line).getD 5 "")

/-! ### Segmenter (`Panako._segment_audio`)

The while loop advances start by step = segment_length − overlap, emits
the window [start, min(start+segment_length, duration)], breaks as soon as
a candidate window is shorter than 3 seconds, and keeps a window only when
its ffmpeg extraction succeeds (oracle ok, indexed by attempt number).
The loop is given explicit fuel; for the intended parameters
(overlap < segment_length, both integers) fuelFor duration attempts
suffice, and the safety theorems below hold for every fuel. -/

/-- Python min on two rationals, kept kernel-computable. -/
def qmin (a b : ℚ) : ℚ := if a ≤ b then a else b

/-- Python max on two rationals, kept kernel-computable. -/
def qmax (a b : ℚ) : ℚ := if a ≤ b then b else a

/-- One window as (start, end) in seconds. -/
abbrev Window := ℚ × ℚ

/-- The segmentation while-loop.  s is the current start, k the attempt
index (used to consult the extraction oracle). -/
def segLoop (ok : ℕ → Bool) (d L step : ℚ) : ℕ → ℚ → ℕ → List Window
  | 0, _, _ => []
  | fuel + 1, s, k =>
    if s < d then
      if qmin (s + L) d - s < 3 then []
      else
        if ok k then (s, qmin (s + L) d) :: segLoop ok d L step fuel (s + step) (k + 1)
        else segLoop ok d L step fuel (s + step) (k + 1)
    else []

/-- Enough loop iterations for any duration d when step ≥ 1. -/
def fuelFor (d : ℚ) : ℕ := d.num.toNat / d.den + 2

/-- `Panako._segment_audio`: none from the duration probe yields no
segments; otherwise run the loop from start 0. -/
def segment_audio (ok : ℕ → Bool) (dur? : Option ℚ) (L ov : ℤ) : List Window :=
  match dur? with
  | none => []
  | some d => segLoop ok d (L : ℚ) ((L : ℚ) - (ov : ℚ)) (fuelFor d) 0 0

/-- The same loop, but recording every candidate window that passes the
length test together with its attempt index, ignoring extraction. -/
def segAttempts (d L step : ℚ) : ℕ → ℚ → ℕ → List (ℕ × Window)
  | 0, _, _ => []
  | fuel + 1, s, k =>
    if s < d then
      if qmin (s + L) d - s < 3 then []
      else (k, (s, qmin (s + L) d)) :: segAttempts d L step fuel (s + step) (k + 1)
    else []

/-- Loop state after k iterations: the start value k·step (from start 0). -/
def segStart (step : ℚ) (k : ℕ) : ℚ := (k : ℚ) * step

/-- The loop's exit condition at start s: either the guard s < d fails or
the candidate window is shorter than 3 seconds (the break). -/
def segExit (d L : ℚ) (s : ℚ) : Prop := ¬ s < d ∨ qmin (s + L) d - s < 3

/-! ### Aggregator (the defaultdict accumulation in `Panako.deep_query`) -/

/-- One per-window hit stored under a candidate: {start, end, score}. -/
structure SegHit where
  start : ℚ
  stop : ℚ
  score : ℤ
deriving DecidableEq

/-- Running statistics of one candidate: {count, total_score, segments}. -/
structure Accum where
  count : ℕ
  total_score : ℤ
  segments : List SegHit
deriving DecidableEq

/-- The insertion-ordered dict candidatePath → Accum. -/
abbrev AccMap := List (String × Accum)

/-- Record one match of window w: increment count, add the score, append
the hit; a new candidate is appended at the end (dict insertion order). -/
def addMatch (w : Window) (m : MatchRec) : AccMap → AccMap
  | [] => [(m.path, ⟨1, m.score, [⟨w.1, w.2, m.score⟩]⟩)]
  | (p, a) :: rest =>
    if p == m.path then
      (p, ⟨a.count + 1, a.total_score + m.score, a.segments ++ [⟨w.1, w.2, m.score⟩]⟩) :: rest
    else (p, a) :: addMatch w m rest

/-- Fold one window's match list into the accumulator. -/
def addWindow (w : Window) (ms : List MatchRec) (acc : AccMap) : AccMap :=
  ms.foldl (fun a m => addMatch w m a) acc

/-- Fold all windows, starting from the empty per-invocation map. -/
def aggregate (inputs : List (Window × List MatchRec)) : AccMap :=
  inputs.foldl (fun a wm => addWindow wm.1 wm.2 a) []

/-- First accumulator entry stored under path p. -/
def findAcc (p : String) : AccMap → Option Accum
  | [] => none
  | (q, a) :: rest => if q == p then some a else findAcc p rest

/-- The hit count recorded for candidate p (0 when absent). -/
def lookupCount (p : String) (acc : AccMap) : ℕ :=
  ((findAcc p acc).map Accum.count).getD 0

/-! ### Interval merger (the time_ranges loop in `Panako.deep_query`) -/

/-- Processing of one hit: extend the last span when the hit starts within
overlap of its end, otherwise open a new span. -/
def mergeStep (ov : ℚ) (tr : List (ℚ × ℚ)) (seg : SegHit) : List (ℚ × ℚ) :=
  match tr.getLast? with
  | some lastSpan =>
      if seg.start ≤ lastSpan.2 + ov then
        tr.dropLast ++ [(lastSpan.1, qmax lastSpan.2 seg.stop)]
      else tr ++ [(seg.start, seg.stop)]
  | none => [(seg.start, seg.stop)]

/-- Stable insertion placing x before the first y with f x y. -/
def sIns (f : α → α → Bool) (x : α) : List α → List α
  | [] => [x]
  | y :: ys => if f x y then x :: y :: ys else y :: sIns f x ys

/-- Stable insertion sort (placement rule f). -/
def sSort (f : α → α → Bool) : List α → List α
  | [] => []
  | x :: xs => sIns f x (sSort f xs)

/-- Ascending-by-start placement: stable sort key lambda x: x['start']. -/
def startLe (a b : SegHit) : Bool := decide (a.start ≤ b.start)

/-- sorted(segments, key start) then the merge fold from the empty list. -/
def mergeSpans (ov : ℚ) (hits : List SegHit) : List (ℚ × ℚ) :=
  (sSort startLe hits).foldl (mergeStep ov) []

/-! ### Ranker (filter + sort in `Panako.deep_query`) -/

/-- One ranked result row. -/
structure RankedResult where
  path : String
  segment_count : ℕ
  total_segments : ℕ
  percentage : ℚ
  total_score : ℤ
  time_ranges : List (ℚ × ℚ)
deriving DecidableEq

/-- The results list before sorting: accumulator (= first-observed) order,
keeping candidates with count ≥ min_segments. -/
def preRank (acc : AccMap) (minSeg : ℕ) (total : ℕ) (ov : ℚ) : List RankedResult :=
  (acc.filter (fun pa => decide (minSeg ≤ pa.2.count))).map (fun pa =>
    ⟨pa.1, pa.2.count, total, ((pa.2.count : ℚ) / (total : ℚ)) * 100,
      pa.2.total_score, mergeSpans ov pa.2.segments⟩)

/-- Descending stable placement on the key (segment_count, total_score):
A may precede B when A's key is lexicographically ≥ B's. -/
def rankBefore (A B : RankedResult) : Bool :=
  decide (B.segment_count < A.segment_count ∨
    (B.segment_count = A.segment_count ∧ B.total_score ≤ A.total_score))

/-- results.sort(key=(segment_count, total_score), reverse=True) —
a stable descending sort applied after the filter. -/
def rankResults (acc : AccMap) (minSeg : ℕ) (total : ℕ) (ov : ℚ) : List RankedResult :=
  sSort rankBefore (preRank acc minSeg total ov)

/-! ### deep_query (`Panako.deep_query`) -/

/-- Pair each window with the parse of its point-query output (a failed or
output-less invocation contributes no records). -/
def windowInputs (segs : List Window) (queryOut : ℕ → Option String) :
    List (Window × List MatchRec) :=
  segs.enum.map (fun p => (p.2, ((queryOut p.1).map parse_query_output).getD []))

/-- `Panako.deep_query`, with the externals as oracles: returns none (the
failure value) when the query file is missing, ffprobe is unavailable, the
duration probe fails, or no segments were created; otherwise aggregates,
filters, and sorts, returning some results (possibly the empty list). -/
def deep_query (fileExists ffprobeOk : Bool) (dur? : Option ℚ) (ok : ℕ → Bool)
    (queryOut : ℕ → Option String) (L ov : ℤ) (minSeg : ℕ) :
    Option (List RankedResult) :=
  if !fileExists then none
  else if !ffprobeOk then none
  else
    match dur? with
    | none => none
    | some d =>
      let segs := segment_audio ok (some d) L ov
      if segs.isEmpty then none
      else
        let acc := aggregate (windowInputs segs queryOut)
        some (rankResults acc minSeg segs.length (ov : ℚ))

/-! ### External call sites of the pipeline (timeout configuration)

Each blocking subprocess invocation reached from deep_query, recorded as
it appears at its call site: its timeout argument (seconds), and whether a
TimeoutExpired from it is caught so that processing continues. -/

structure ExtCall where
  timeout : Option ℕ
  timeoutCaught : Bool
deriving DecidableEq

/-- subprocess.run(['ffprobe', ..., '-show_entries', 'format=duration', ...],
timeout=30) in `Panako._get_audio_duration`, TimeoutExpired caught. -/
def durationProbeCall : ExtCall := ⟨some 30, true⟩

/-- subprocess.run(['ffmpeg', '-y', ...], timeout=60) in
`Panako._segment_audio`, TimeoutExpired caught (window skipped). -/
def extractionCall : ExtCall := ⟨some 60, true⟩

/-- subprocess.run(cmd, capture_output=True, text=True, check=True) in
`Panako._run_command` — the per-window point query: no timeout argument,
and no TimeoutExpired handler. -/
def pointQueryCall : ExtCall := ⟨none, false⟩

/-- The three blocking invocations of the deep-query pipeline. -/
def deepQueryBlockingCalls : List ExtCall :=
  [durationProbeCall, extractionCall, pointQueryCall]

/-! ### A concrete end-to-end run (three windows all matching one file) -/

/-- One engine output line in the 13-field format, reporting /db/X.wav with
the given score. -/
def demoLine (sc : String) : String :=
  "1;1;q.wav;0.0;15.0;/db/X.wav;7;0.0;40.0;" ++ sc ++ ";1.0;1.0;90.0"

/-- Per-window query outputs: scores 10, 8, 12 on windows 0, 1, 2. -/
def demoQueryOut : ℕ → Option String :=
  fun i =>
    if i = 0 then some (demoLine "10")
    else if i = 1 then some (demoLine "8")
    else if i = 2 then some (demoLine "12")
    else none

theorem qmin_eq (a b : ℚ) : qmin a b = min a b := by
  simp [qmin, min_def]

theorem qmax_eq (a b : ℚ) : qmax a b = max a b := by
  rcases le_or_lt a b with h | h
  · simp [qmax, h, max_eq_right h]
  · simp [qmax, not_le.mpr h, max_eq_left h.le]

/-! ### Generic facts about the stable insertion sort -/

theorem mem_sIns {α : Type*} (f : α → α → Bool) (x a : α) (l : List α) :
    a ∈ sIns f x l ↔ a = x ∨ a ∈ l := by
  induction l with
  | nil => simp [sIns]
  | cons y ys ih =>
    simp only [sIns]
    split
    · simp [List.mem_cons]
    · simp only [List.mem_cons, ih]
      tauto

theorem mem_sSort {α : Type*} (f : α → α → Bool) (a : α) (l : List α) :
    a ∈ sSort f l ↔ a ∈ l := by
  induction l with
  | nil => simp [sSort]
  | cons x xs ih => simp [sSort, mem_sIns, ih]

theorem sIns_pairwise {α : Type*} {f : α → α → Bool}
    (htot : ∀ a b, f a b = true ∨ f b a = true)
    (htrans : ∀ a b c, f a b = true → f b c = true → f a c = true)
    (x : α) {l : List α} (hl : l.Pairwise (fun a b => f a b = true)) :
    (sIns f x l).Pairwise (fun a b => f a b = true) := by
  induction l with
  | nil => simp [sIns]
  | cons y ys ih =>
    rcases List.pairwise_cons.mp hl with ⟨hy, hys⟩
    simp only [sIns]
    split
    case isTrue hxy =>
      refine List.pairwise_cons.mpr ⟨?_, hl⟩
      intro b hb
      rcases List.mem_cons.mp hb with rfl | hb
      · exact hxy
      · exact htrans _ _ _ hxy (hy b hb)
    case isFalse hxy =>
      refine List.pairwise_cons.mpr ⟨?_, ih hys⟩
      intro b hb
      rcases (mem_sIns f x b ys).mp hb with rfl | hb
      · rcases htot b y with h | h
        · exact absurd h hxy
        · exact h
      · exact hy b hb

theorem sSort_pairwise {α : Type*} {f : α → α → Bool}
    (htot : ∀ a b, f a b = true ∨ f b a = true)
    (htrans : ∀ a b c, f a b = true → f b c = true → f a c = true)
    (l : List α) : (sSort f l).Pairwise (fun a b => f a b = true) := by
  induction l with
  | nil => simp [sSort]
  | cons x xs ih => exact sIns_pairwise htot htrans x ih

theorem filter_sIns_pos {α : Type*} {f : α → α → Bool} {p : α → Bool} {x : α}
    {l : List α} (hpx : p x = true)
    (hstop : ∀ y ∈ l, p y = true → f x y = true) :
    (sIns f x l).filter p = x :: l.filter p := by
  induction l with
  | nil => simp [sIns, hpx]
  | cons y ys ih =>
    simp only [sIns]
    split
    case isTrue hxy => simp [List.filter_cons, hpx]
    case isFalse hxy =>
      have hpy : p y = false := by
        rcases Bool.eq_false_or_eq_true (p y) with h | h
        · exact absurd (hstop y (by simp) h) hxy
        · exact h
      simp only [List.filter_cons, hpy, if_neg, Bool.false_eq_true, if_false]
      exact ih (fun z hz hpz => hstop z (List.mem_cons_of_mem y hz) hpz)

theorem filter_sIns_neg {α : Type*} {f : α → α → Bool} {p : α → Bool} {x : α}
    {l : List α} (hpx : p x = false) :
    (sIns f x l).filter p = l.filter p := by
  induction l with
  | nil => simp [sIns, hpx]
  | cons y ys ih =>
    simp only [sIns]
    split
    · simp [List.filter_cons, hpx]
    · simp [List.filter_cons, ih]

theorem filter_sSort {α : Type*} {f : α → α → Bool} {p : α → Bool}
    (hkey : ∀ a b, p a = true → p b = true → f a b = true) (l : List α) :
    (sSort f l).filter p = l.filter p := by
  induction l with
  | nil => rfl
  | cons x xs ih =>
    simp only [sSort]
    rcases Bool.eq_false_or_eq_true (p x) with hpx | hpx
    · rw [filter_sIns_pos hpx (fun y _ hpy => hkey x y hpx hpy), ih,
        List.filter_cons, if_pos (by simp [hpx])]
    · rw [filter_sIns_neg hpx, ih, List.filter_cons, if_neg (by simp [hpx])]

/-! ### Parser accounting -/

theorem length_filterMap_cons {α β : Type*} (f : α → Option β) (a : α) (l : List α) :
    (List.filterMap f (a :: l)).length = (f a).toList.length + (List.filterMap f l).length := by
  rcases h : f a with _ | b
  · simp [List.filterMap_cons, h]
  · simp [List.filterMap_cons, h, Nat.add_comm]

/-- Per-line accounting: exactly one of {parsed record, self-match,
scratch-artifact match} per fully-parseable data line, nothing otherwise. -/
theorem parseLine_count (line : String) :
    (parseLine line).toList.length + (if isSelfMatch line then 1 else 0) +
      (if isScratchMatch line then 1 else 0) = if isValidData line then 1 else 0 := by
  by_cases hdl : isDataLine line = true
  case neg =>
    have hdl' : isDataLine line = false := by simpa using hdl
    simp [parseLine, isSelfMatch, isScratchMatch, isValidData, hdl']
  case pos =>
    by_cases hlen : 10 ≤ (lineParts line).length
    case neg =>
      simp [parseLine, parseParts, isSelfMatch, isScratchMatch, isValidData, hdl, hlen]
    case pos =>
      rcases h9 : parseIntQ ((lineParts line)[9]?.getD "") with _ | sc
      · simp [parseLine, parseParts, isSelfMatch, isScratchMatch, isValidData, hdl, hlen, h9]
      · rcases h7 : floatOrZero ((lineParts line)[7]?.getD "") with _ | a
        · by_cases hself : (lineParts line)[2]?.getD "" = (lineParts line)[5]?.getD ""
          · simp [parseLine, parseParts, isSelfMatch, isScratchMatch, isValidData,
              hdl, hlen, h9, h7, hself]
          · by_cases hscr : isScratchPath ((lineParts line)[5]?.getD "") = true
            · simp [parseLine, parseParts, isSelfMatch, isScratchMatch, isValidData,
                hdl, hlen, h9, h7, hself, hscr]
            · simp [parseLine, parseParts, isSelfMatch, isScratchMatch, isValidData,
                hdl, hlen, h9, h7, hself, hscr]
        · rcases h8 : floatOrZero ((lineParts line)[8]?.getD "") with _ | b
          · by_cases hself : (lineParts line)[2]?.getD "" = (lineParts line)[5]?.getD ""
            · simp [parseLine, parseParts, isSelfMatch, isScratchMatch, isValidData,
                hdl, hlen, h9, h7, h8, hself]
            · by_cases hscr : isScratchPath ((lineParts line)[5]?.getD "") = true
              · simp [parseLine, parseParts, isSelfMatch, isScratchMatch, isValidData,
                  hdl, hlen, h9, h7, h8, hself, hscr]
              · simp [parseLine, parseParts, isSelfMatch, isScratchMatch, isValidData,
                  hdl, hlen, h9, h7, h8, hself, hscr]
          · by_cases hself : (lineParts line)[2]?.getD "" = (lineParts line)[5]?.getD ""
            · simp [parseLine, parseParts, isSelfMatch, isScratchMatch, isValidData,
                hdl, hlen, h9, h7, h8, hself]
            · by_cases hscr : isScratchPath ((lineParts line)[5]?.getD "") = true
              · simp [parseLine, parseParts, isSelfMatch, isScratchMatch, isValidData,
                  hdl, hlen, h9, h7, h8, hself, hscr]
              · simp [parseLine, parseParts, isSelfMatch, isScratchMatch, isValidData,
                  hdl, hlen, h9, h7, h8, hself, hscr]

/-- Folding the per-line accounting over a list of lines. -/
theorem parse_count_lines (lines : List String) :
    (lines.filterMap parseLine).length + lines.countP isSelfMatch +
      lines.countP isScratchMatch = lines.countP isValidData := by
  induction lines with
  | nil => rfl
  | cons l ls ih =>
    rw [length_filterMap_cons, List.countP_cons, List.countP_cons, List.countP_cons]
    have h := parseLine_count l
    omega

/-! ### Aggregation accounting -/

theorem lookupCount_cons (q : String) (a : Accum) (t : AccMap) (x : String) :
    lookupCount x ((q, a) :: t) = if q = x then a.count else lookupCount x t := by
  by_cases h : q = x <;> simp [lookupCount, findAcc, h]

theorem lookupCount_addMatch (w : Window) (m : MatchRec) (acc : AccMap) (x : String) :
    lookupCount x (addMatch w m acc) =
      lookupCount x acc + (if m.path = x then 1 else 0) := by
  induction acc with
  | nil =>
    by_cases h : m.path = x
    · simp [addMatch, lookupCount, findAcc, h]
    · simp [addMatch, lookupCount, findAcc, h]
  | cons qa rest ih =>
    obtain ⟨q, a⟩ := qa
    by_cases hq : q = m.path
    · have haddEq : addMatch w m ((q, a) :: rest) =
          (q, ⟨a.count + 1, a.total_score + m.score,
            a.segments ++ [⟨w.1, w.2, m.score⟩]⟩) :: rest := by
        simp [addMatch, hq]
      rw [haddEq, lookupCount_cons, lookupCount_cons]
      by_cases hx : q = x
      · have hmx : m.path = x := hq.symm.trans hx
        simp [hx, hmx]
      · have hmx : m.path ≠ x := fun hh => hx (hq.trans hh)
        simp [hx, hmx]
    · have haddEq : addMatch w m ((q, a) :: rest) = (q, a) :: addMatch w m rest := by
        simp [addMatch, hq]
      rw [haddEq, lookupCount_cons, lookupCount_cons]
      by_cases hx : q = x
      · have hmx : m.path ≠ x := fun hh => hq (hx.trans hh.symm)
        simp [hx, hmx]
      · simp only [hx, if_neg, reduceIte]
        exact ih

theorem lookupCount_addWindow (w : Window) (ms : List MatchRec) (acc : AccMap)
    (x : String) :
    lookupCount x (addWindow w ms acc) =
      lookupCount x acc + ms.countP (fun m => m.path == x) := by
  induction ms generalizing acc with
  | nil => simp [addWindow]
  | cons m ms ih =>
    show lookupCount x (addWindow w ms (addMatch w m acc)) = _
    rw [ih (addMatch w m acc), lookupCount_addMatch, List.countP_cons]
    by_cases h : m.path = x
    · simp [h]
      omega
    · simp [h]

theorem lookupCount_foldl (inputs : List (Window × List MatchRec)) (acc : AccMap)
    (x : String) :
    lookupCount x (inputs.foldl (fun a wm => addWindow wm.1 wm.2 a) acc) =
      lookupCount x acc +
        (inputs.map (fun wm => wm.2.countP (fun m => m.path == x))).sum := by
  induction inputs generalizing acc with
  | nil => simp
  | cons wm rest ih =>
    simp only [List.foldl_cons, List.map_cons, List.sum_cons]
    rw [ih (addWindow wm.1 wm.2 acc), lookupCount_addWindow]
    omega

/-- Each candidate's recorded hit count is the total number of match records
naming it, over all windows. -/
theorem lookupCount_aggregate (inputs : List (Window × List MatchRec)) (x : String) :
    lookupCount x (aggregate inputs) =
      (inputs.map (fun wm => wm.2.countP (fun m => m.path == x))).sum := by
  rw [aggregate, lookupCount_foldl]
  simp [lookupCount, findAcc]

theorem addMatch_inv (w : Window) (m : MatchRec) {acc : AccMap}
    (h : ∀ pa ∈ acc, pa.2.count = pa.2.segments.length) :
    ∀ pa ∈ addMatch w m acc, pa.2.count = pa.2.segments.length := by
  induction acc with
  | nil =>
    intro pa hpa
    simp only [addMatch, List.mem_singleton] at hpa
    subst hpa
    rfl
  | cons qa rest ih =>
    obtain ⟨q, a⟩ := qa
    intro pa hpa
    simp only [addMatch] at hpa
    split at hpa
    · rcases List.mem_cons.mp hpa with rfl | hpa
      · have ha : a.count = a.segments.length := h (q, a) (List.mem_cons_self (q, a) rest)
        show a.count + 1 = (a.segments ++ [(⟨w.1, w.2, m.score⟩ : SegHit)]).length
        simp only [List.length_append, List.length_singleton]
        omega
      · exact h pa (List.mem_cons_of_mem _ hpa)
    · rcases List.mem_cons.mp hpa with rfl | hpa
      · exact h (q, a) (List.mem_cons_self (q, a) rest)
      · exact ih (fun pb hpb => h pb (List.mem_cons_of_mem _ hpb)) pa hpa

theorem addWindow_inv (w : Window) (ms : List MatchRec) {acc : AccMap}
    (h : ∀ pa ∈ acc, pa.2.count = pa.2.segments.length) :
    ∀ pa ∈ addWindow w ms acc, pa.2.count = pa.2.segments.length := by
  induction ms generalizing acc with
  | nil => exact h
  | cons m ms ih =>
    show ∀ pa ∈ addWindow w ms (addMatch w m acc), _
    exact ih (addMatch_inv w m h)

/-- The accumulator invariant hitCount = length(hits), after any sequence
of windows. -/
theorem aggregate_inv (inputs : List (Window × List MatchRec)) :
    ∀ pa ∈ aggregate inputs, pa.2.count = pa.2.segments.length := by
  have main : ∀ (l : List (Window × List MatchRec)) (acc : AccMap),
      (∀ pa ∈ acc, pa.2.count = pa.2.segments.length) →
      ∀ pa ∈ l.foldl (fun a wm => addWindow wm.1 wm.2 a) acc,
        pa.2.count = pa.2.segments.length := by
    intro l
    induction l with
    | nil => intro acc h; exact h
    | cons wm rest ih =>
      intro acc h
      exact ih (addWindow wm.1 wm.2 acc) (addWindow_inv wm.1 wm.2 h)
  exact main inputs [] (by intro pa hpa; simp at hpa)

/-! ### Segmentation safety -/

/-- Every emitted window starts on the step grid reachable from s, is
shorter than the remaining duration, and has length at least 3. -/
theorem segLoop_mem {ok : ℕ → Bool} {d L step : ℚ} :
    ∀ {fuel : ℕ} {s : ℚ} {k : ℕ} {w : Window}, w ∈ segLoop ok d L step fuel s k →
      3 ≤ w.2 - w.1 ∧ w.1 < d ∧
        ∃ i : ℕ, w.1 = s + (i : ℚ) * step ∧ w.2 = qmin (w.1 + L) d := by
  intro fuel
  induction fuel with
  | zero => intro s k w hw; simp [segLoop] at hw
  | succ n ih =>
    intro s k w hw
    simp only [segLoop] at hw
    split at hw
    case isTrue hsd =>
      split at hw
      case isTrue hshort => simp at hw
      case isFalse hshort =>
        have hrest : ∀ w2 : Window, w2 ∈ segLoop ok d L step n (s + step) (k + 1) →
            3 ≤ w2.2 - w2.1 ∧ w2.1 < d ∧
              ∃ i : ℕ, w2.1 = s + (i : ℚ) * step ∧ w2.2 = qmin (w2.1 + L) d := by
          intro w2 hw2
          obtain ⟨h3, hlt, i, hi, hmin⟩ := ih hw2
          exact ⟨h3, hlt, i + 1, by push_cast [hi]; ring, hmin⟩
        split at hw
        case isTrue hok =>
          rcases List.mem_cons.mp hw with rfl | hw
          · exact ⟨by simpa using not_lt.mp hshort, hsd, 0, by simp, rfl⟩
          · exact hrest w hw
        case isFalse hok => exact hrest w hw
    case isFalse hsd => simp at hw

/-- With every extraction succeeding, a non-empty loop result starts at the
current start value. -/
theorem segLoop_head {ok : ℕ → Bool} (hok : ∀ j, ok j = true) {d L step : ℚ}
    {fuel : ℕ} {s : ℚ} {k : ℕ} {w : Window} {rest : List Window}
    (h : segLoop ok d L step fuel s k = w :: rest) : w.1 = s := by
  cases fuel with
  | zero => simp [segLoop] at h
  | succ n =>
    simp only [segLoop, hok k, if_true] at h
    split at h
    · split at h
      · simp at h
      · have h1 : (s, qmin (s + L) d) = w := (List.cons_eq_cons.mp h).1
        rw [← h1]
    · simp at h

/-- With every extraction succeeding, consecutive emitted windows' starts
differ by exactly step. -/
theorem segLoop_chain {ok : ℕ → Bool} (hok : ∀ j, ok j = true) (d L step : ℚ) :
    ∀ (fuel : ℕ) (s : ℚ) (k : ℕ),
      (segLoop ok d L step fuel s k).Chain' (fun w w2 => w2.1 = w.1 + step) := by
  intro fuel
  induction fuel with
  | zero => intro s k; simp [segLoop]
  | succ n ih =>
    intro s k
    simp only [segLoop, hok k, if_true]
    split
    · split
      · simp
      · rw [List.chain'_cons']
        refine ⟨?_, ih (s + step) (k + 1)⟩
        intro w2 hw2
        rcases htail : segLoop ok d L step n (s + step) (k + 1) with _ | ⟨a, as⟩
        · rw [htail] at hw2; simp at hw2
        · rw [htail] at hw2
          simp only [List.head?_cons, Option.mem_def, Option.some.injEq] at hw2
          rw [← hw2]
          exact segLoop_head hok htail
    · simp

/-- The loop emits exactly the length-admissible candidate windows whose
extraction succeeded: a failed (or timed-out) attempt contributes nothing
and processing continues with the next attempt. -/
theorem segLoop_eq_filter (ok : ℕ → Bool) (d L step : ℚ) :
    ∀ (fuel : ℕ) (s : ℚ) (k : ℕ),
      segLoop ok d L step fuel s k =
        ((segAttempts d L step fuel s k).filter (fun p => ok p.1)).map Prod.snd := by
  intro fuel
  induction fuel with
  | zero => intro s k; simp [segLoop, segAttempts]
  | succ n ih =>
    intro s k
    simp only [segLoop, segAttempts]
    split
    · split
      · simp
      · rcases hok : ok k with _ | _
        · simp only [List.filter_cons, hok, Bool.false_eq_true, if_false]
          exact ih (s + step) (k + 1)
        · simp only [List.filter_cons, hok, if_true, List.map_cons]
          rw [ih (s + step) (k + 1)]
    · simp

/-! ### Loop exit and non-exit -/

/-- With a positive step the loop's guard eventually fails. -/
theorem segExit_reached (d : ℚ) (L ov : ℤ) (hLov : ov < L) :
    ∃ k : ℕ, segExit d (L : ℚ) (segStart ((L : ℚ) - (ov : ℚ)) k) := by
  obtain ⟨k, hk⟩ := exists_nat_gt d
  refine ⟨k, Or.inl ?_⟩
  have hstep : (1 : ℚ) ≤ (L : ℚ) - (ov : ℚ) := by
    have : (ov : ℚ) + 1 ≤ (L : ℚ) := by exact_mod_cast Int.add_one_le_iff.mpr hLov
    linarith
  have hmul : (k : ℚ) * 1 ≤ (k : ℚ) * ((L : ℚ) - (ov : ℚ)) :=
    mul_le_mul_of_nonneg_left hstep (Nat.cast_nonneg k)
  simp only [segStart, not_lt]
  nlinarith

/-- With a non-positive step and a long enough track, neither exit
condition is ever satisfied: the loop never stops. -/
theorem segExit_never (d : ℚ) (L ov : ℤ) (hov : L ≤ ov) (hd : 3 ≤ d)
    (hL : 3 ≤ L) : ∀ k : ℕ, ¬ segExit d (L : ℚ) (segStart ((L : ℚ) - (ov : ℚ)) k) := by
  intro k hex
  have hstep : (L : ℚ) - (ov : ℚ) ≤ 0 := by
    have : (L : ℚ) ≤ (ov : ℚ) := by exact_mod_cast hov
    linarith
  have hs : segStart ((L : ℚ) - (ov : ℚ)) k ≤ 0 :=
    mul_nonpos_iff.mpr (Or.inl ⟨Nat.cast_nonneg k, hstep⟩)
  have hL3 : (3 : ℚ) ≤ (L : ℚ) := by exact_mod_cast hL
  set s := segStart ((L : ℚ) - (ov : ℚ)) k with hsdef
  have h1 : s < d := lt_of_le_of_lt hs (by linarith)
  have h2 : s + 3 ≤ qmin (s + (L : ℚ)) d := by
    rw [qmin_eq]
    exact le_min (by linarith) (by linarith)
  rcases hex with hx | hx
  · exact hx h1
  · linarith

/-- Under the non-exit conditions the loop output grows with the fuel
without bound: the while loop does not terminate. -/
theorem segLoop_no_exit_length (d : ℚ) (L ov : ℤ) (hov : L ≤ ov) (hd : 3 ≤ d)
    (hL : 3 ≤ L) :
    ∀ (fuel k : ℕ),
      (segLoop (fun _ => true) d (L : ℚ) ((L : ℚ) - (ov : ℚ)) fuel
        (segStart ((L : ℚ) - (ov : ℚ)) k) k).length = fuel := by
  intro fuel
  induction fuel with
  | zero => intro k; simp [segLoop]
  | succ n ih =>
    intro k
    have hnex := segExit_never d L ov hov hd hL k
    have h1 : segStart ((L : ℚ) - (ov : ℚ)) k < d := by
      by_contra hc
      exact hnex (Or.inl hc)
    have h2 : ¬ qmin (segStart ((L : ℚ) - (ov : ℚ)) k + (L : ℚ)) d -
        segStart ((L : ℚ) - (ov : ℚ)) k < 3 := by
      intro hc
      exact hnex (Or.inr hc)
    have hnext : segStart ((L : ℚ) - (ov : ℚ)) k + ((L : ℚ) - (ov : ℚ)) =
        segStart ((L : ℚ) - (ov : ℚ)) (k + 1) := by
      simp only [segStart]
      push_cast
      ring
    simp only [segLoop, if_pos h1, if_neg h2, if_true, List.length_cons]
    rw [hnext, ih (k + 1)]

/-! ### Ranker helpers -/

theorem rankResults_eq_nil {acc : AccMap} {minSeg total : ℕ} {ov : ℚ}
    (h : ∀ pa ∈ acc, pa.2.count < minSeg) :
    rankResults acc minSeg total ov = [] := by
  have hfil : acc.filter (fun pa => decide (minSeg ≤ pa.2.count)) = [] := by
    rw [List.filter_eq_nil_iff]
    intro pa hpa
    simp [Nat.not_le.mpr (h pa hpa)]
  simp [rankResults, preRank, hfil, sSort]

theorem getD_take_of_lt {α : Type*} (l : List α) (n i : ℕ) (d : α) (h : i < n) :
    (l.take n).getD i d = l.getD i d := by
  simp [List.getD_eq_getElem?_getD, List.getElem?_take, h]

theorem rankBefore_total (A B : RankedResult) :
    rankBefore A B = true ∨ rankBefore B A = true := by
  simp only [rankBefore, decide_eq_true_eq]
  rcases Nat.lt_trichotomy A.segment_count B.segment_count with h | h | h
  · exact Or.inr (Or.inl h)
  · rcases le_total A.total_score B.total_score with ht | ht
    · exact Or.inr (Or.inr ⟨h, ht⟩)
    · exact Or.inl (Or.inr ⟨h.symm, ht⟩)
  · exact Or.inl (Or.inl h)

theorem rankBefore_trans (A B C : RankedResult) (h1 : rankBefore A B = true)
    (h2 : rankBefore B C = true) : rankBefore A C = true := by
  simp only [rankBefore, decide_eq_true_eq] at h1 h2 ⊢
  rcases h1 with h1 | ⟨e1, t1⟩ <;> rcases h2 with h2 | ⟨e2, t2⟩
  · exact Or.inl (h2.trans h1)
  · exact Or.inl (by rw [e2]; exact h1)
  · exact Or.inl (by rw [← e1]; exact h2)
  · exact Or.inr ⟨e2.trans e1, t2.trans t1⟩

/-! ### The claims -/

/-- C2: for duration ≥ 0, segmentLength > overlap ≥ 0 and all extractions
succeeding, the segmenter emits windows of the form
[k·step, min(k·step + segmentLength, duration)] with step =
segmentLength − overlap, never emits a window shorter than 3 seconds,
starts at 0, and consecutive emitted windows' starts differ by exactly
step. -/
theorem C2_segmenter (ok : ℕ → Bool) (d : ℚ) (L ov : ℤ) (hd : 0 ≤ d)
    (hov : 0 ≤ ov) (hLov : ov < L) (hok : ∀ k, ok k = true) :
    (∀ w ∈ segment_audio ok (some d) L ov,
        3 ≤ w.2 - w.1 ∧ w.1 < d ∧
          ∃ k : ℕ, w.1 = (k : ℚ) * ((L : ℚ) - (ov : ℚ)) ∧
            w.2 = qmin (w.1 + (L : ℚ)) d) ∧
    (∀ w rest, segment_audio ok (some d) L ov = w :: rest → w.1 = 0) ∧
    (segment_audio ok (some d) L ov).Chain'
      (fun w w2 => w2.1 = w.1 + ((L : ℚ) - (ov : ℚ))) := by
  refine ⟨?_, ?_, ?_⟩
  · intro w hw
    have hw2 : w ∈ segLoop ok d (L : ℚ) ((L : ℚ) - (ov : ℚ)) (fuelFor d) 0 0 := hw
    obtain ⟨h3, hlt, i, hi, hmin⟩ := segLoop_mem hw2
    refine ⟨h3, hlt, i, ?_, hmin⟩
    rw [hi]
    ring
  · intro w rest h
    exact segLoop_head hok h
  · exact segLoop_chain hok d (L : ℚ) ((L : ℚ) - (ov : ℚ)) (fuelFor d) 0 0

theorem C2_segmenter_witness :
    (segment_audio (fun _ => true) (some 40) 15 2).Chain'
      (fun w w2 => w2.1 = w.1 + (((15 : ℤ) : ℚ) - ((2 : ℤ) : ℚ))) :=
  (C2_segmenter (fun _ => true) 40 15 2 (by norm_num) (by decide) (by decide)
    (fun _ => rfl)).2.2

/-- C3: the merge step extends the last span to max(lastSpan.end,
hit.windowEnd) when the hit starts within overlap of its end and opens a
new span otherwise; windows [0,15], [13,28] at overlap 2 merge to [0,28],
while [0,15], [20,35] stay two disjoint spans. -/
theorem C3_interval_merging :
    (∀ (ov : ℚ) (tr : List (ℚ × ℚ)) (seg : SegHit) (a b : ℚ),
        tr.getLast? = some (a, b) → seg.start ≤ b + ov →
        mergeStep ov tr seg = tr.dropLast ++ [(a, qmax b seg.stop)]) ∧
    (∀ (ov : ℚ) (tr : List (ℚ × ℚ)) (seg : SegHit) (a b : ℚ),
        tr.getLast? = some (a, b) → ¬ seg.start ≤ b + ov →
        mergeStep ov tr seg = tr ++ [(seg.start, seg.stop)]) ∧
    (∀ (ov : ℚ) (seg : SegHit), mergeStep ov [] seg = [(seg.start, seg.stop)]) ∧
    mergeSpans 2 [⟨0, 15, 10⟩, ⟨13, 28, 8⟩] = [(0, 28)] ∧
    mergeSpans 2 [⟨0, 15, 10⟩, ⟨20, 35, 8⟩] = [(0, 15), (20, 35)] := by
  refine ⟨?_, ?_, ?_, ?_, ?_⟩
  · intro ov tr seg a b hlast hle
    simp [mergeStep, hlast, hle]
  · intro ov tr seg a b hlast hle
    simp [mergeStep, hlast, hle]
  · intro ov seg
    rfl
  · with_unfolding_all decide
  · with_unfolding_all decide

theorem C3_interval_merging_witness :
    mergeStep 2 [((0 : ℚ), (15 : ℚ))] ⟨13, 28, 8⟩ = [((0 : ℚ), qmax 15 28)] :=
  C3_interval_merging.1 2 [(0, 15)] ⟨13, 28, 8⟩ 0 15 rfl (by norm_num)

/-- C4: no candidate below minSegments survives; the output is ordered by
hit count, then total score, both descending; candidates tied on both
keys keep the accumulator (first-observed) order. -/
theorem C4_ranker (acc : AccMap) (minSeg total : ℕ) (ov : ℚ) :
    (∀ r ∈ rankResults acc minSeg total ov, minSeg ≤ r.segment_count) ∧
    (rankResults acc minSeg total ov).Pairwise
      (fun A B => B.segment_count < A.segment_count ∨
        (A.segment_count = B.segment_count ∧ B.total_score ≤ A.total_score)) ∧
    (∀ (c : ℕ) (s : ℤ),
        (rankResults acc minSeg total ov).filter
            (fun r => r.segment_count == c && r.total_score == s) =
          (preRank acc minSeg total ov).filter
            (fun r => r.segment_count == c && r.total_score == s)) := by
  refine ⟨?_, ?_, ?_⟩
  · intro r hr
    simp only [rankResults] at hr
    rw [mem_sSort] at hr
    simp only [preRank] at hr
    rcases List.mem_map.mp hr with ⟨pa, hpa, rfl⟩
    have hcond := (List.mem_filter.mp hpa).2
    exact of_decide_eq_true hcond
  · have hp := sSort_pairwise rankBefore_total rankBefore_trans
      (preRank acc minSeg total ov)
    refine List.Pairwise.imp ?_ hp
    intro A B h
    have h2 : B.segment_count < A.segment_count ∨
        (B.segment_count = A.segment_count ∧ B.total_score ≤ A.total_score) := by
      simpa only [rankBefore, decide_eq_true_eq] using h
    rcases h2 with h1 | ⟨e, t⟩
    · exact Or.inl h1
    · exact Or.inr ⟨e.symm, t⟩
  · intro c s
    simp only [rankResults]
    refine filter_sSort ?_ _
    intro a b hpa hpb
    simp only [Bool.and_eq_true, beq_iff_eq] at hpa hpb
    obtain ⟨ha1, ha2⟩ := hpa
    obtain ⟨hb1, hb2⟩ := hpb
    simp only [rankBefore, decide_eq_true_eq]
    exact Or.inr ⟨hb1.trans ha1.symm, le_of_eq (hb2.trans ha2.symm)⟩

theorem C4_ranker_witness :
    (rankResults [("X", ⟨1, 5, []⟩)] 1 1 2).filter
        (fun r => r.segment_count == 1 && r.total_score == 5) =
      (preRank [("X", ⟨1, 5, []⟩)] 1 1 2).filter
        (fun r => r.segment_count == 1 && r.total_score == 5) :=
  (C4_ranker [("X", ⟨1, 5, []⟩)] 1 1 2).2.2 1 5

/-- C5: a data line whose score field does not parse as an integer is
skipped without error, and the parsed-record count equals the number of
fully-parseable data lines minus self-match lines minus scratch-artifact
lines, the self-match filter applying before the scratch filter (a
scratch line is only counted as such when it is not a self-match). -/
theorem C5_parse_accounting (output : String) :
    (((parse_query_output output).length : ℤ) =
      ((output.trim.splitOn "\n").countP isValidData : ℤ) -
        ((output.trim.splitOn "\n").countP isSelfMatch : ℤ) -
        ((output.trim.splitOn "\n").countP isScratchMatch : ℤ)) ∧
    (∀ line : String, parseIntQ ((lineParts line).getD 9 "") = none →
      parseLine line = none) := by
  constructor
  · have h := parse_count_lines (output.trim.splitOn "\n")
    have h2 := congrArg (Nat.cast : ℕ → ℤ) h
    push_cast at h2
    simp only [parse_query_output]
    linarith
  · intro line h9
    rw [List.getD_eq_getElem?_getD] at h9
    by_cases hdl : isDataLine line = true
    · by_cases hlen : 10 ≤ (lineParts line).length
      · simp [parseLine, parseParts, hdl, hlen, h9]
      · simp [parseLine, parseParts, hdl, hlen]
    · simp [parseLine, hdl]

theorem C5_parse_accounting_witness :
    parseLine "1;1;q.wav;0;15;/db/X.wav;7;0;15;notanum" = none :=
  (C5_parse_accounting "").2 "1;1;q.wav;0;15;/db/X.wav;7;0;15;notanum"
    (by with_unfolding_all decide)

/-- C6: each candidate's hit count equals the number of match records
naming it across all windows; the invariant hitCount = length(hits) holds
after any sequence of windows; counts never shrink as windows are
appended. -/
theorem C6_aggregator (inputs : List (Window × List MatchRec)) :
    (∀ x : String, lookupCount x (aggregate inputs) =
        (inputs.map (fun wm => wm.2.countP (fun m => m.path == x))).sum) ∧
    (∀ pa ∈ aggregate inputs, pa.2.count = pa.2.segments.length) ∧
    (∀ (more : List (Window × List MatchRec)) (x : String),
        lookupCount x (aggregate inputs) ≤
          lookupCount x (aggregate (inputs ++ more))) := by
  refine ⟨lookupCount_aggregate inputs, aggregate_inv inputs, ?_⟩
  intro more x
  rw [lookupCount_aggregate, lookupCount_aggregate, List.map_append,
    List.sum_append]
  exact Nat.le_add_right _ _

theorem C6_aggregator_witness :
    (("/db/X.wav", (⟨1, 10, [⟨0, 15, 10⟩]⟩ : Accum)) : String × Accum).2.count =
      (("/db/X.wav", (⟨1, 10, [⟨0, 15, 10⟩]⟩ : Accum)) : String × Accum).2.segments.length :=
  (C6_aggregator [((0, 15), [⟨"/db/X.wav", 10, 0, 15⟩])]).2.1
    ("/db/X.wav", ⟨1, 10, [⟨0, 15, 10⟩]⟩) (by with_unfolding_all decide)

/-- C7: with the query file present and ffprobe available, deep_query
returns the failure value none exactly when the duration probe fails or
no segments were created; when segments exist it returns some list, and
when additionally every candidate's hit count is below minSegments it
returns some [] — an empty success distinct from none. -/
theorem C7_failure_modes (ok : ℕ → Bool) (queryOut : ℕ → Option String)
    (L ov : ℤ) (minSeg : ℕ) :
    (deep_query true true none ok queryOut L ov minSeg = none) ∧
    (∀ d : ℚ, segment_audio ok (some d) L ov = [] →
      deep_query true true (some d) ok queryOut L ov minSeg = none) ∧
    (∀ d : ℚ, segment_audio ok (some d) L ov ≠ [] →
      deep_query true true (some d) ok queryOut L ov minSeg =
        some (rankResults
          (aggregate (windowInputs (segment_audio ok (some d) L ov) queryOut))
          minSeg (segment_audio ok (some d) L ov).length (ov : ℚ))) ∧
    (∀ d : ℚ, segment_audio ok (some d) L ov ≠ [] →
      (∀ pa ∈ aggregate (windowInputs (segment_audio ok (some d) L ov) queryOut),
          pa.2.count < minSeg) →
      deep_query true true (some d) ok queryOut L ov minSeg = some []) := by
  have hmain : ∀ d : ℚ, segment_audio ok (some d) L ov ≠ [] →
      deep_query true true (some d) ok queryOut L ov minSeg =
        some (rankResults
          (aggregate (windowInputs (segment_audio ok (some d) L ov) queryOut))
          minSeg (segment_audio ok (some d) L ov).length (ov : ℚ)) := by
    intro d hne
    have hemp : (segment_audio ok (some d) L ov).isEmpty = false := by
      rcases h : segment_audio ok (some d) L ov with _ | ⟨w, rest⟩
      · exact absurd h hne
      · rfl
    simp [deep_query, hemp]
  refine ⟨by simp [deep_query], ?_, hmain, ?_⟩
  · intro d h
    simp [deep_query, h]
  · intro d h hlow
    rw [hmain d h, rankResults_eq_nil hlow]

theorem C7_failure_modes_witness :
    (deep_query true true none (fun _ => true) (fun _ => none) 15 2 1 = none) ∧
    (deep_query true true (some 40) (fun _ => true) (fun _ => some "") 15 2 1 =
      some []) := by
  constructor
  · exact (C7_failure_modes (fun _ => true) (fun _ => none) 15 2 1).1
  · exact (C7_failure_modes (fun _ => true) (fun _ => some "") 15 2 1).2.2.2 40
      (by with_unfolding_all decide) (by with_unfolding_all decide)

/-- C8 counterexample: the per-window point-query invocation is one of the
pipeline's blocking calls and carries no timeout, refuting the claim that
every blocking invocation is bounded by a timeout. -/
theorem C8_counterexample :
    pointQueryCall ∈ deepQueryBlockingCalls ∧ pointQueryCall.timeout = none :=
  ⟨by simp [deepQueryBlockingCalls], rfl⟩

/-- C8 amended: the duration probe (30 s) and each window's extraction
call (60 s) are bounded by timeouts whose expiry is caught, and a failed
or timed-out extraction attempt only removes that window while the loop
continues with the next attempt; the per-window point-query call has no
timeout and no TimeoutExpired handler. -/
theorem C8_timeouts :
    durationProbeCall.timeout = some 30 ∧ durationProbeCall.timeoutCaught = true ∧
    extractionCall.timeout = some 60 ∧ extractionCall.timeoutCaught = true ∧
    pointQueryCall.timeout = none ∧ pointQueryCall.timeoutCaught = false ∧
    (∀ (ok : ℕ → Bool) (d L step : ℚ) (fuel : ℕ) (s : ℚ) (k : ℕ),
        segLoop ok d L step fuel s k =
          ((segAttempts d L step fuel s k).filter (fun p => ok p.1)).map
            Prod.snd) :=
  ⟨rfl, rfl, rfl, rfl, rfl, rfl,
    fun ok d L step fuel s k => segLoop_eq_filter ok d L step fuel s k⟩

/-- C9: when overlap < segmentLength the loop's exit condition is reached
from every duration, and when overlap ≥ segmentLength (with duration and
segmentLength at least 3) the exit condition never holds — the loop never
stops, emitting as many windows as it is given iterations. -/
theorem C9_termination :
    (∀ (d : ℚ) (L ov : ℤ), ov < L →
        ∃ k : ℕ, segExit d (L : ℚ) (segStart ((L : ℚ) - (ov : ℚ)) k)) ∧
    (∀ (d : ℚ) (L ov : ℤ), L ≤ ov → 3 ≤ d → 3 ≤ L →
        ∀ k : ℕ, ¬ segExit d (L : ℚ) (segStart ((L : ℚ) - (ov : ℚ)) k)) ∧
    (∀ (d : ℚ) (L ov : ℤ) (fuel : ℕ), L ≤ ov → 3 ≤ d → 3 ≤ L →
        (segLoop (fun _ => true) d (L : ℚ) ((L : ℚ) - (ov : ℚ)) fuel 0 0).length
          = fuel) := by
  refine ⟨fun d L ov h => segExit_reached d L ov h,
    fun d L ov h1 h2 h3 => segExit_never d L ov h1 h2 h3, ?_⟩
  intro d L ov fuel h1 h2 h3
  have h := segLoop_no_exit_length d L ov h1 h2 h3 fuel 0
  have h0 : segStart ((L : ℚ) - (ov : ℚ)) 0 = 0 := by simp [segStart]
  rw [h0] at h
  exact h

theorem C9_termination_witness :
    (segLoop (fun _ => true) 40 ((3 : ℤ) : ℚ) (((3 : ℤ) : ℚ) - ((5 : ℤ) : ℚ)) 2 0 0).length
      = 2 :=
  C9_termination.2.2 40 3 5 2 (by decide) (by norm_num) (by decide)

/-- C10: the field logic reads only the first ten semicolon fields — a
line with at least ten fields parses exactly as its ten-field truncation
— and any ten-field line with parseable numerics that passes the
self-match and scratch filters yields a MatchRecord; the spec's fields
11-13 are never consulted. -/
theorem C10_ten_fields :
    (∀ parts : List String, 10 ≤ parts.length →
        parseParts parts = parseParts (parts.take 10)) ∧
    (∀ parts : List String, parts.length = 10 →
        ∀ sc : ℤ, parseIntQ (parts.getD 9 "") = some sc →
        parts.getD 2 "" ≠ parts.getD 5 "" →
        isScratchPath (parts.getD 5 "") = false →
        ∀ a b : ℚ, floatOrZero (parts.getD 7 "") = some a →
        floatOrZero (parts.getD 8 "") = some b →
        parseParts parts = some ⟨parts.getD 5 "", sc, a, b⟩) := by
  constructor
  · intro parts h
    have e2 := getD_take_of_lt parts 10 2 "" (by norm_num)
    have e5 := getD_take_of_lt parts 10 5 "" (by norm_num)
    have e7 := getD_take_of_lt parts 10 7 "" (by norm_num)
    have e8 := getD_take_of_lt parts 10 8 "" (by norm_num)
    have e9 := getD_take_of_lt parts 10 9 "" (by norm_num)
    have hl : 10 ≤ (parts.take 10).length := by
      rw [List.length_take]
      omega
    simp only [parseParts]
    rw [if_pos h, if_pos hl, e2, e5, e7, e8, e9]
  · intro parts hlen sc h9 hself hscr a b h7 h8
    have h10 : 10 ≤ parts.length := by omega
    have hbeq : ¬ (parts.getD 2 "" == parts.getD 5 "") = true := by
      intro hc
      simp only [beq_iff_eq] at hc
      exact hself hc
    have hscr2 : ¬ isScratchPath (parts.getD 5 "") = true := by
      rw [hscr]
      simp
    simp only [parseParts]
    rw [if_pos h10, h9]
    simp only [if_neg hbeq, if_neg hscr2, h7, h8]

theorem C10_ten_fields_witness :
    parseParts ["1", "1", "q.wav", "0.0", "15.0", "/db/X.wav", "7", "0.0",
        "40.0", "10", "1.0", "1.0", "90.0"] =
      parseParts (["1", "1", "q.wav", "0.0", "15.0", "/db/X.wav", "7", "0.0",
        "40.0", "10", "1.0", "1.0", "90.0"].take 10) :=
  C10_ten_fields.1 _ (by decide)

/-- C1: the 40-second track at segmentLength 15 and overlap 2 yields
exactly the windows [0,15], [13,28], [26,40]; when each window reports one
match for /db/X.wav with scores 10, 8, 12, the ranked result has hit
count 3 of 3, percentage 100, total score 30, and the single merged span
[0,40]. -/
theorem C1_end_to_end :
    segment_audio (fun _ => true) (some 40) 15 2 = [(0, 15), (13, 28), (26, 40)] ∧
    deep_query true true (some 40) (fun _ => true) demoQueryOut 15 2 1 =
      some [⟨"/db/X.wav", 3, 3, 100, 30, [(0, 40)]⟩] := by
  constructor
  · with_unfolding_all decide
  · with_unfolding_all decide

end Panako
